import Mathlib

set_option autoImplicit false

/-!
Shallow embedding of the cache engine of the repository (src/src/CacheManager.ts
together with the data types of src/src/types.ts).  The `Map<string, CacheEntry>`
is embedded as an association list in insertion order, mirroring the iteration
and update order of a JavaScript `Map`.  Timestamps (`Date.now()`, milliseconds)
are natural numbers supplied explicitly to each operation; operation durations
(`performance.now()` differences) are rationals supplied explicitly.  JavaScript
numbers that can become non-finite (only `avgAccessTime`, through an unguarded
division) are embedded as `Option ℚ`, where `some q` is the finite number `q`
and `none` is a non-finite number (`Infinity` or `NaN`); the operations used on
it (addition, multiplication, division by a nonzero rational) never turn a
non-finite JavaScript number back into a finite one, so the abstraction is
exact for the predicate "the stored number is finite".  The outbound
`sendSseEvent` calls are collected as a list of emitted events.
-/

namespace MemCache

/-- A JavaScript value, embedded by the behaviour of `JSON.stringify` on it:
either serialization succeeds and yields the given text, or `JSON.stringify`
returns `undefined` (the value is `undefined`, a function or a symbol, so the
subsequent `.length` access throws a `TypeError`), or `JSON.stringify` itself
throws a `TypeError` (circular structure, `BigInt`). -/
inductive JSValue where
  | json (s : String)
  | jsonUndefined
  | jsonThrows (msg : String)
deriving DecidableEq

/-- A thrown JavaScript error, identified by its class name and message. -/
structure JsError where
  name : String
  message : String
deriving DecidableEq

/-- CacheEntry of src/src/types.ts.  `ttl` is optional in the interface
(`ttl?: number`), though `set` always stores a resolved value. -/
structure CacheEntry where
  value : JSValue
  created : Nat
  lastAccessed : Nat
  ttl : Option Nat
  size : Nat
deriving DecidableEq

/-- CacheStats of src/src/types.ts.  `avgAccessTime` is `Option ℚ`:
`some q` is a finite JavaScript number, `none` a non-finite one. -/
structure CacheStats where
  totalEntries : Nat
  memoryUsage : Int
  hits : Nat
  misses : Nat
  hitRate : ℚ
  avgAccessTime : Option ℚ
deriving DecidableEq

/-- CacheConfig of src/src/types.ts after the constructor has applied the
`??` defaults (the `Required<CacheConfig>` stored in the manager). -/
structure CacheConfig where
  maxEntries : Nat
  maxMemory : Int
  defaultTTL : Nat
  checkInterval : Nat
  statsInterval : Nat
deriving DecidableEq

/-- The optional configuration argument of the constructor
(`config: CacheConfig = {}` in TypeScript, every field optional). -/
structure CacheConfigInput where
  maxEntries : Option Nat := none
  maxMemory : Option Int := none
  defaultTTL : Option Nat := none
  checkInterval : Option Nat := none
  statsInterval : Option Nat := none

/-- The `??` defaulting done in the constructor of CacheManager. -/
def resolveConfig (c : CacheConfigInput) : CacheConfig where
  maxEntries := c.maxEntries.getD 1000
  maxMemory := c.maxMemory.getD (100 * 1024 * 1024)
  defaultTTL := c.defaultTTL.getD 3600
  checkInterval := c.checkInterval.getD (60 * 1000)
  statsInterval := c.statsInterval.getD (30 * 1000)

/-- An event pushed through `sendSseEvent` in src/src/index.ts. -/
inductive SseEvent where
  | cacheSet (key : String) (value : JSValue)
  | cacheDelete (key : String)
deriving DecidableEq

/-- `Map.prototype.get`: the value of the unique pair with the given key. -/
def mapGet : List (String × CacheEntry) → String → Option CacheEntry
  | [], _ => none
  | p :: rest, key => if p.1 = key then some p.2 else mapGet rest key

/-- `Map.prototype.set`: replace in place when the key is present (a JavaScript
`Map` keeps the original insertion position), append at the end otherwise. -/
def mapSet : List (String × CacheEntry) → String → CacheEntry → List (String × CacheEntry)
  | [], key, e => [(key, e)]
  | p :: rest, key, e => if p.1 = key then (key, e) :: rest else p :: mapSet rest key e

/-- `Map.prototype.delete`: remove the pair with the given key. -/
def mapDelete : List (String × CacheEntry) → String → List (String × CacheEntry)
  | [], _ => []
  | p :: rest, key => if p.1 = key then mapDelete rest key else p :: mapDelete rest key

/-- The statistics record installed by the constructor and by `resetStats`. -/
def CacheStats.initial : CacheStats where
  totalEntries := 0
  memoryUsage := 0
  hits := 0
  misses := 0
  hitRate := 0
  avgAccessTime := some 0

/-- The whole manager state: the map, the statistics and the fixed config.
The two maintenance interval handles carry no cache state and are omitted. -/
structure CacheManager where
  cache : List (String × CacheEntry)
  stats : CacheStats
  config : CacheConfig
deriving DecidableEq

/-- The constructor of CacheManager: empty map, zeroed stats, defaulted config. -/
def CacheManager.init (input : CacheConfigInput) : CacheManager where
  cache := []
  stats := CacheStats.initial
  config := resolveConfig input

/-- `updateHitRate` of src/src/CacheManager.ts:
`total > 0 ? (hits / total) * 100 : 0`. -/
def CacheStats.updateHitRate (s : CacheStats) : CacheStats :=
  let total := s.hits + s.misses
  { s with hitRate := if total > 0 then (s.hits : ℚ) / (total : ℚ) * 100 else 0 }

/-- `updateAccessTime` of src/src/CacheManager.ts:
`avgAccessTime = ((avgAccessTime * (total - 1)) + duration) / total` with
`total = hits + misses`.  The division is not guarded: when `total = 0`
JavaScript divides by zero and the stored number becomes non-finite
(`Infinity`, or `NaN` when the numerator is also zero), embedded as `none`;
a non-finite stored value also stays non-finite through the update. -/
def CacheStats.updateAccessTime (s : CacheStats) (duration : ℚ) : CacheStats :=
  let total := s.hits + s.misses
  { s with avgAccessTime :=
      if total = 0 then none
      else s.avgAccessTime.map (fun a => (a * ((total : ℚ) - 1) + duration) / (total : ℚ)) }

/-- `calculateSize` of src/src/CacheManager.ts:
`JSON.stringify(value).length * 2`, with the two `TypeError` outcomes of an
unserializable value. -/
def calculateSize (value : JSValue) : Except JsError Nat :=
  match value with
  | .json s => .ok (s.length * 2)
  | .jsonUndefined => .error ⟨"TypeError", "Cannot read properties of undefined"⟩
  | .jsonThrows msg => .error ⟨"TypeError", msg⟩

/-- `isExpired` of src/src/CacheManager.ts:
`Date.now() > entry.created + (entry.ttl ?? defaultTTL) * 1000`. -/
def CacheManager.isExpired (c : CacheManager) (entry : CacheEntry) (now : Nat) : Bool :=
  now > entry.created + (entry.ttl.getD c.config.defaultTTL) * 1000

/-- `delete` of src/src/CacheManager.ts.  Returns the new state, the emitted
events and the boolean result. -/
def CacheManager.delete (c : CacheManager) (key : String) :
    CacheManager × List SseEvent × Bool :=
  match mapGet c.cache key with
  | some entry =>
      let cache1 := mapDelete c.cache key
      ({ c with
          cache := cache1,
          stats := { c.stats with
            memoryUsage := c.stats.memoryUsage - (entry.size : Int),
            totalEntries := cache1.length } },
       [SseEvent.cacheDelete key], true)
  | none => (c, [], false)

/-- The LRU comparison used by `enforceMemoryLimit`:
`(a, b) => a.lastAccessed - b.lastAccessed`, ascending. -/
def lruLE (p q : String × CacheEntry) : Prop :=
  p.2.lastAccessed ≤ q.2.lastAccessed

instance : DecidableRel lruLE := fun p q => Nat.decLe p.2.lastAccessed q.2.lastAccessed

instance : IsTotal (String × CacheEntry) lruLE :=
  ⟨fun p q => Nat.le_total p.2.lastAccessed q.2.lastAccessed⟩

instance : IsTrans (String × CacheEntry) lruLE :=
  ⟨fun _ _ _ h1 h2 => Nat.le_trans h1 h2⟩

/-- The snapshot `Array.from(this.cache.entries()).sort(...)` taken by
`enforceMemoryLimit`: the entries in insertion order, stably sorted by
`lastAccessed` ascending (JavaScript `sort` is stable, so ties keep
insertion order, as does the stable insertion sort used here). -/
def sortByLastAccessed (m : List (String × CacheEntry)) : List (String × CacheEntry) :=
  m.insertionSort lruLE

/-- The `while` loop of `enforceMemoryLimit`: shift the least recently
accessed remaining snapshot entry and `delete` it while the projected usage
still exceeds the limit and snapshot entries remain. -/
def evictLoop (required : Int) :
    CacheManager → List (String × CacheEntry) → CacheManager × List SseEvent
  | c, [] => (c, [])
  | c, p :: rest =>
      if c.stats.memoryUsage + required > c.config.maxMemory then
        let d := c.delete p.1
        let r := evictLoop required d.1 rest
        (r.1, d.2.1 ++ r.2)
      else (c, [])

/-- `enforceMemoryLimit` of src/src/CacheManager.ts. -/
def CacheManager.enforceMemoryLimit (c : CacheManager) (requiredSize : Int) :
    CacheManager × List SseEvent :=
  evictLoop requiredSize c (sortByLastAccessed c.cache)

/-- `set` of src/src/CacheManager.ts.  `now` is `Date.now()` and `duration`
is the measured `performance.now()` difference for this call.  Note that the
old entry size is not subtracted when a key is overwritten. -/
def CacheManager.set (c : CacheManager) (key : String) (value : JSValue)
    (ttl : Option Nat) (now : Nat) (duration : ℚ) :
    Except JsError (CacheManager × List SseEvent) :=
  match calculateSize value with
  | .error e => .error e
  | .ok size =>
      let r :=
        if c.stats.memoryUsage + (size : Int) > c.config.maxMemory then
          c.enforceMemoryLimit (size : Int)
        else (c, [])
      let c1 := r.1
      let entry : CacheEntry :=
        { value := value, created := now, lastAccessed := now,
          ttl := some (ttl.getD c1.config.defaultTTL), size := size }
      let cache1 := mapSet c1.cache key entry
      let stats1 := { c1.stats with
        totalEntries := cache1.length,
        memoryUsage := c1.stats.memoryUsage + (size : Int) }
      .ok ({ c1 with cache := cache1, stats := stats1.updateAccessTime duration },
           r.2 ++ [SseEvent.cacheSet key value])

/-- `get` of src/src/CacheManager.ts.  Returns the new state, the emitted
events and the returned value (`none` embeds `undefined`).  Only the hit
path reaches `updateAccessTime`; both miss paths return before it. -/
def CacheManager.get (c : CacheManager) (key : String) (now : Nat) (duration : ℚ) :
    CacheManager × List SseEvent × Option JSValue :=
  match mapGet c.cache key with
  | none =>
      ({ c with stats := { c.stats with misses := c.stats.misses + 1 }.updateHitRate },
       [], none)
  | some entry =>
      if c.isExpired entry now then
        let d := c.delete key
        ({ d.1 with stats := { d.1.stats with misses := d.1.stats.misses + 1 }.updateHitRate },
         d.2.1, none)
      else
        let cache1 := mapSet c.cache key { entry with lastAccessed := now }
        let stats1 := ({ c.stats with hits := c.stats.hits + 1 }).updateHitRate
        ({ c with cache := cache1, stats := stats1.updateAccessTime duration },
         [], some entry.value)

/-- `clear` of src/src/CacheManager.ts: `cache.clear()` then `resetStats()`
(which reinstalls the zeroed statistics literal); no events are emitted. -/
def CacheManager.clear (c : CacheManager) : CacheManager :=
  { c with cache := [], stats := CacheStats.initial }

/-- `getStats` of src/src/CacheManager.ts: a snapshot copy of the stats. -/
def CacheManager.getStats (c : CacheManager) : CacheStats :=
  c.stats

/-- Test harness helper: run `set` and keep both the resulting state and the
emitted events, falling back to the unchanged state when `set` throws. -/
def runSetE (c : CacheManager) (key : String) (value : JSValue)
    (ttl : Option Nat) (now : Nat) (duration : ℚ) : CacheManager × List SseEvent :=
  match c.set key value ttl now duration with
  | .ok r => r
  | .error _ => (c, [])

/-- Test harness helper: the state after a `set`, unchanged when it throws. -/
def runSet (c : CacheManager) (key : String) (value : JSValue)
    (ttl : Option Nat) (now : Nat) (duration : ℚ) : CacheManager :=
  (runSetE c key value ttl now duration).1

/-- The exact sum of `size` over the currently live entries. -/
def liveSize (m : List (String × CacheEntry)) : Int :=
  (m.map (fun p => (p.2.size : Int))).sum

/-- Modelled from the spec: the running-mean latency update of spec section 4.1,
`avgAccessTime_new = (avgAccessTime_old * (n - 1) + d) / n`, where `n = hits + misses`
with the counters already reflecting the current operation and `d` the measured
duration.  Stated over the same embedding of JavaScript numbers, it is used to
compare the specified update against what the code actually stores. -/
def specRunningMeanUpdate (avg : Option ℚ) (n : Nat) (d : ℚ) : Option ℚ :=
  if n = 0 then none
  else avg.map (fun a => (a * ((n : ℚ) - 1) + d) / (n : ℚ))

/-- A cache with `maxMemory = 20` holding entries A, B and C of size 6 each,
inserted (hence last accessed) at times 1, 2 and 3, built by the real `set`. -/
def stateABC : CacheManager :=
  runSet (runSet (runSet (CacheManager.init { maxMemory := some 20 })
    "A" (.json "aaa") none 1 0) "B" (.json "aaa") none 2 0) "C" (.json "aaa") none 3 0

end MemCache

namespace MemCache

theorem mapGet_mapDelete (m : List (String × CacheEntry)) (k k2 : String) :
    mapGet (mapDelete m k) k2 = if k2 = k then none else mapGet m k2 := by
  induction m with
  | nil => simp [mapDelete, mapGet]
  | cons p rest ih =>
      by_cases h1 : p.1 = k
      · rw [show mapDelete (p :: rest) k = mapDelete rest k from by simp [mapDelete, h1], ih]
        by_cases h2 : k2 = k
        · simp [h2]
        · have hp : ¬ p.1 = k2 := fun h => h2 (by rw [h] at h1; exact h1)
          simp [h2, mapGet, hp]
      · rw [show mapDelete (p :: rest) k = p :: mapDelete rest k from by simp [mapDelete, h1]]
        by_cases h3 : p.1 = k2
        · have h2 : ¬ k2 = k := fun h => h1 (by rw [h3, h])
          simp [mapGet, h3, h2]
        · simp [mapGet, h3, ih]

theorem mapGet_isSome_of_mem (m : List (String × CacheEntry)) (k : String) (e : CacheEntry)
    (h : (k, e) ∈ m) : (mapGet m k).isSome := by
  induction m with
  | nil => simp at h
  | cons p rest ih =>
      rcases List.mem_cons.mp h with h | h
      · simp [mapGet, ← h]
      · by_cases h1 : p.1 = k <;> simp [mapGet, h1, ih h]

theorem mapDelete_eq_of_not_mem (m : List (String × CacheEntry)) (k : String)
    (h : k ∉ m.map Prod.fst) : mapDelete m k = m := by
  induction m with
  | nil => rfl
  | cons p rest ih =>
      simp only [List.map_cons, List.mem_cons] at h
      push_neg at h
      have hp : ¬ p.1 = k := fun hq => h.1 hq.symm
      simp [mapDelete, hp, ih h.2]

theorem mapDelete_length (m : List (String × CacheEntry)) (k : String)
    (hnd : (m.map Prod.fst).Nodup) (hsome : (mapGet m k).isSome) :
    (mapDelete m k).length = m.length - 1 := by
  induction m with
  | nil => simp [mapGet] at hsome
  | cons p rest ih =>
      simp only [List.map_cons, List.nodup_cons] at hnd
      by_cases h1 : p.1 = k
      · have hne : k ∉ rest.map Prod.fst := by rw [← h1]; exact hnd.1
        simp [mapDelete, h1, mapDelete_eq_of_not_mem rest k hne]
      · simp only [mapGet, if_neg h1] at hsome
        have hlen := ih hnd.2 hsome
        have hpos : 1 ≤ rest.length := by
          cases rest with
          | nil => simp [mapGet] at hsome
          | cons _ _ => simp
        simp only [mapDelete, if_neg h1, List.length_cons, hlen]
        omega

theorem delete_preserves (c : CacheManager) (k : String) :
    (c.delete k).1.config = c.config ∧ (c.delete k).1.stats.hits = c.stats.hits
    ∧ (c.delete k).1.stats.misses = c.stats.misses
    ∧ (c.delete k).1.stats.hitRate = c.stats.hitRate
    ∧ (c.delete k).1.stats.avgAccessTime = c.stats.avgAccessTime := by
  unfold CacheManager.delete
  cases mapGet c.cache k <;> simp

theorem evictLoop_preserves (required : Int) (l : List (String × CacheEntry)) :
    ∀ c : CacheManager,
      (evictLoop required c l).1.config = c.config
      ∧ (evictLoop required c l).1.stats.hits = c.stats.hits
      ∧ (evictLoop required c l).1.stats.misses = c.stats.misses
      ∧ (evictLoop required c l).1.stats.hitRate = c.stats.hitRate
      ∧ (evictLoop required c l).1.stats.avgAccessTime = c.stats.avgAccessTime := by
  induction l with
  | nil => intro c; simp [evictLoop]
  | cons p rest ih =>
      intro c
      by_cases hcond : c.stats.memoryUsage + required > c.config.maxMemory
      · have hd := delete_preserves c p.1
        have hr := ih (c.delete p.1).1
        simp only [evictLoop, if_pos hcond]
        exact ⟨hr.1.trans hd.1, (hr.2.1).trans hd.2.1, (hr.2.2.1).trans hd.2.2.1,
               (hr.2.2.2.1).trans hd.2.2.2.1, (hr.2.2.2.2).trans hd.2.2.2.2⟩
      · simp [evictLoop, if_neg hcond]

end MemCache

namespace MemCache

theorem evictLoop_events (required : Int) (l : List (String × CacheEntry)) :
    ∀ c : CacheManager,
      (l.map Prod.fst).Nodup →
      (∀ p ∈ l, (mapGet c.cache p.1).isSome) →
      (evictLoop required c l).2 =
        (l.take (evictLoop required c l).2.length).map (fun p => SseEvent.cacheDelete p.1) := by
  induction l with
  | nil => intro c _ _; simp [evictLoop]
  | cons p rest ih =>
      intro c hnd hpres
      simp only [List.map_cons, List.nodup_cons] at hnd
      by_cases hcond : c.stats.memoryUsage + required > c.config.maxMemory
      · obtain ⟨e, he⟩ := Option.isSome_iff_exists.mp (hpres p (List.mem_cons_self p rest))
        have hev : (c.delete p.1).2.1 = [SseEvent.cacheDelete p.1] := by
          unfold CacheManager.delete
          rw [he]
        have hrest : ∀ q ∈ rest, (mapGet (c.delete p.1).1.cache q.1).isSome := by
          intro q hq
          have hne : ¬ q.1 = p.1 := by
            intro hqe
            exact hnd.1 (by rw [← hqe]; exact List.mem_map_of_mem Prod.fst hq)
          have hcache : (c.delete p.1).1.cache = mapDelete c.cache p.1 := by
            unfold CacheManager.delete
            rw [he]
          rw [hcache, mapGet_mapDelete, if_neg hne]
          exact hpres q (List.mem_cons_of_mem p hq)
        have hih := ih (c.delete p.1).1 hnd.2 hrest
        have hstep : evictLoop required c (p :: rest) =
            ((evictLoop required (c.delete p.1).1 rest).1,
             (c.delete p.1).2.1 ++ (evictLoop required (c.delete p.1).1 rest).2) := by
          simp only [evictLoop, if_pos hcond]
        rw [hstep, hev, List.singleton_append]
        simp only [List.length_cons, List.take_succ_cons, List.map_cons]
        exact congrArg _ hih
      · simp [evictLoop, if_neg hcond]

theorem evictLoop_stop (required : Int) (l : List (String × CacheEntry)) :
    ∀ c : CacheManager,
      (∀ k : String, (mapGet c.cache k).isSome → k ∈ l.map Prod.fst) →
      ((evictLoop required c l).1.stats.memoryUsage + required ≤ c.config.maxMemory
       ∨ (evictLoop required c l).1.cache = []) := by
  induction l with
  | nil =>
      intro c hsub
      have hcache : c.cache = [] := by
        cases hc : c.cache with
        | nil => rfl
        | cons q rest2 =>
            have : (mapGet c.cache q.1).isSome := by
              rw [hc]; simp [mapGet]
            simpa using hsub q.1 this
      simp [evictLoop, hcache]
  | cons p rest ih =>
      intro c hsub
      by_cases hcond : c.stats.memoryUsage + required > c.config.maxMemory
      · have hsub2 : ∀ k : String, (mapGet (c.delete p.1).1.cache k).isSome →
            k ∈ rest.map Prod.fst := by
          intro k hk
          cases hg : mapGet c.cache p.1 with
          | some e =>
              have hcache : (c.delete p.1).1.cache = mapDelete c.cache p.1 := by
                unfold CacheManager.delete
                rw [hg]
              rw [hcache, mapGet_mapDelete] at hk
              by_cases hke : k = p.1
              · rw [if_pos hke] at hk; simp at hk
              · rw [if_neg hke] at hk
                have := hsub k hk
                simp only [List.map_cons, List.mem_cons] at this
                exact this.resolve_left hke
          | none =>
              have hcache : (c.delete p.1).1 = c := by
                unfold CacheManager.delete
                rw [hg]
              rw [hcache] at hk
              have := hsub k hk
              simp only [List.map_cons, List.mem_cons] at this
              rcases this with h | h
              · exfalso
                rw [h, hg] at hk
                simp at hk
              · exact h
        have hres := ih (c.delete p.1).1 hsub2
        have hcfg : (c.delete p.1).1.config = c.config := (delete_preserves c p.1).1
        have hstep1 : (evictLoop required c (p :: rest)).1 =
            (evictLoop required (c.delete p.1).1 rest).1 := by
          simp only [evictLoop, if_pos hcond]
        rw [hstep1, ← hcfg]
        exact hres
      · left
        simp only [evictLoop, if_neg hcond]
        omega

end MemCache

namespace MemCache

theorem mem_of_mapGet (m : List (String × CacheEntry)) (k : String) (e : CacheEntry)
    (h : mapGet m k = some e) : (k, e) ∈ m := by
  induction m with
  | nil => simp [mapGet] at h
  | cons p rest ih =>
      by_cases h1 : p.1 = k
      · simp only [mapGet, if_pos h1, Option.some.injEq] at h
        have hpe : (k, e) = p := by rw [← h1, ← h]
        rw [hpe]
        exact List.mem_cons_self p rest
      · simp only [mapGet, if_neg h1] at h
        exact List.mem_cons_of_mem p (ih h)

/-- Claim C9: after `clear()`, the cache holds no entries and every statistics
field is zero, so `getStats()` returns all-zero statistics regardless of the
prior state (`avgAccessTime = some 0` is the finite number zero). -/
theorem clear_resets (c : CacheManager) :
    (c.clear).getStats = { totalEntries := 0, memoryUsage := 0, hits := 0, misses := 0,
                           hitRate := 0, avgAccessTime := some 0 }
    ∧ (c.clear).cache = []
    ∧ (∀ key, mapGet (c.clear).cache key = none) :=
  ⟨rfl, rfl, fun _ => rfl⟩

/-- Claim C1 (code bug evaluation): overwriting key `k` (size 4) with a same-size
value leaves `memoryUsage = 8` although the exact sum of sizes over live
entries is 4; the old size is never subtracted on overwrite. -/
theorem put_overwrite_drift :
    (runSet (runSet (CacheManager.init {}) "k" (.json "aa") none 0 0)
        "k" (.json "aa") none 1 0).stats.memoryUsage = 8
    ∧ liveSize (runSet (runSet (CacheManager.init {}) "k" (.json "aa") none 0 0)
        "k" (.json "aa") none 1 0).cache = 4
    ∧ (runSet (runSet (CacheManager.init {}) "k" (.json "aa") none 0 0)
        "k" (.json "aa") none 1 0).stats.totalEntries = 1 := by
  decide

/-- Claim C2 (code bug evaluation): with `maxMemory = 20`, putting `k` (size 6)
twice and then `j` (size 18) completes with `memoryUsage = 24 > 20` although
the newly inserted entry alone is 18 ≤ 20: the overwrite drift survives
eviction of the whole map and is added to the size of the new entry. -/
theorem put_exceeds_max_memory :
    (runSet (runSet (runSet (CacheManager.init { maxMemory := some 20 })
        "k" (.json "aaa") none 0 0) "k" (.json "aaa") none 1 0)
        "j" (.json "aaaaaaaaa") none 2 0).stats.memoryUsage = 24
    ∧ (runSet (runSet (runSet (CacheManager.init { maxMemory := some 20 })
        "k" (.json "aaa") none 0 0) "k" (.json "aaa") none 1 0)
        "j" (.json "aaaaaaaaa") none 2 0).config.maxMemory = 20
    ∧ (mapGet (runSet (runSet (runSet (CacheManager.init { maxMemory := some 20 })
        "k" (.json "aaa") none 0 0) "k" (.json "aaa") none 1 0)
        "j" (.json "aaaaaaaaa") none 2 0).cache "j").map CacheEntry.size = some 18
    ∧ (runSet (runSet (runSet (CacheManager.init { maxMemory := some 20 })
        "k" (.json "aaa") none 0 0) "k" (.json "aaa") none 1 0)
        "j" (.json "aaaaaaaaa") none 2 0).cache.map Prod.fst = ["j"] := by
  decide

/-- Claim C5 counterexample: `get` on a key never inserted increments `misses`
and returns absent, but does not record the latency of the operation: with duration
5 the stored `avgAccessTime` stays `some 0`, while the running-mean update of
the spec would store `some 5`. -/
theorem get_miss_no_latency_cex :
    ((CacheManager.init {}).get "k" 0 5).1.stats.misses = 1
    ∧ ((CacheManager.init {}).get "k" 0 5).2.2 = none
    ∧ ((CacheManager.init {}).get "k" 0 5).1.stats.avgAccessTime = some 0
    ∧ specRunningMeanUpdate ((CacheManager.init {}).stats.avgAccessTime) 1 5 = some 5
    ∧ ¬ ((some (0 : ℚ)) = (some (5 : ℚ))) := by
  refine ⟨rfl, rfl, rfl, ?_, by norm_num⟩
  have h : specRunningMeanUpdate ((CacheManager.init {}).stats.avgAccessTime) 1 5
      = some ((0 * ((1 : ℚ) - 1) + 5) / (1 : ℚ)) := rfl
  rw [h]
  norm_num

/-- Claim C6 counterexample: a `get` miss is an operation whose counters enter
`n = hits + misses = 1`, yet the code leaves `avgAccessTime` at `some 0`
instead of the running-mean result `some 7` for duration 7; so not every
latency-counting operation applies the running-mean update. -/
theorem latency_miss_cex :
    ((CacheManager.init {}).get "a" 0 7).1.stats.hits
        + ((CacheManager.init {}).get "a" 0 7).1.stats.misses = 1
    ∧ ((CacheManager.init {}).get "a" 0 7).1.stats.avgAccessTime = some 0
    ∧ specRunningMeanUpdate (some 0) 1 7 = some 7
    ∧ ¬ ((some (0 : ℚ)) = (some (7 : ℚ))) := by
  refine ⟨rfl, rfl, ?_, by norm_num⟩
  have h : specRunningMeanUpdate (some 0) 1 7 = some ((0 * ((1 : ℚ) - 1) + 7) / (1 : ℚ)) := rfl
  rw [h]
  norm_num

/-- Claim C7 counterexample: `set` on a value whose serialization throws fails
with the raw `TypeError` of `JSON.stringify`; the code defines no distinct
`SerializationError` kind. -/
theorem set_serialization_cex :
    (CacheManager.init {}).set "k" (.jsonThrows "Converting circular structure to JSON") none 0 0
      = .error ⟨"TypeError", "Converting circular structure to JSON"⟩
    ∧ ¬ (("TypeError" : String) = "SerializationError") := by
  exact ⟨rfl, by decide⟩

end MemCache

namespace MemCache

/-- Claim C7 (amended): `set` on an unserializable value fails synchronously
with the underlying `TypeError` thrown while estimating the size (there is no
distinct `SerializationError` kind in the code); serializable values never make
`set` fail, and every failure `set` can produce is such a `TypeError`. -/
theorem set_serialization_failure (c : CacheManager) (key : String) (ttl : Option Nat)
    (now : Nat) (d : ℚ) :
    (∀ msg, c.set key (.jsonThrows msg) ttl now d = .error ⟨"TypeError", msg⟩)
    ∧ c.set key .jsonUndefined ttl now d =
        .error ⟨"TypeError", "Cannot read properties of undefined"⟩
    ∧ (∀ s : String, ∃ r, c.set key (.json s) ttl now d = .ok r)
    ∧ (∀ v err, c.set key v ttl now d = .error err → err.name = "TypeError") := by
  refine ⟨fun msg => rfl, rfl, fun s => ⟨_, rfl⟩, fun v err herr => ?_⟩
  cases v with
  | json s => simp [CacheManager.set, calculateSize] at herr
  | jsonUndefined =>
      simp only [CacheManager.set, calculateSize] at herr
      cases herr
      rfl
  | jsonThrows msg =>
      simp only [CacheManager.set, calculateSize] at herr
      cases herr
      rfl

/-- Claim C7 witness: the general theorem applied to a concrete unserializable
value on a fresh cache. -/
theorem set_serialization_failure_witness :
    (CacheManager.init {}).set "w" (.jsonThrows "boom") none 0 0
      = .error ⟨"TypeError", "boom"⟩ :=
  (set_serialization_failure (CacheManager.init {}) "w" none 0 0).1 "boom"

/-- Claim C8: `remove` of an existing key subtracts the size of that entry from
`memoryUsage`, deletes exactly that entry, keeps `totalEntries` equal to the
map size (one less under unique keys), emits the remove notification and
returns true, leaving the hit/miss statistics alone; `remove` of an absent key
returns false and leaves the whole state unchanged. -/
theorem delete_spec (c : CacheManager) (key : String) :
    (∀ e, mapGet c.cache key = some e →
        (c.delete key).2.2 = true
        ∧ (c.delete key).2.1 = [SseEvent.cacheDelete key]
        ∧ (c.delete key).1.stats.memoryUsage = c.stats.memoryUsage - (e.size : Int)
        ∧ mapGet (c.delete key).1.cache key = none
        ∧ (∀ k2, ¬ k2 = key → mapGet (c.delete key).1.cache k2 = mapGet c.cache k2)
        ∧ (c.delete key).1.stats.totalEntries = (c.delete key).1.cache.length
        ∧ ((c.cache.map Prod.fst).Nodup →
            (c.delete key).1.stats.totalEntries = c.cache.length - 1)
        ∧ (c.delete key).1.stats.hits = c.stats.hits
        ∧ (c.delete key).1.stats.misses = c.stats.misses
        ∧ (c.delete key).1.stats.hitRate = c.stats.hitRate
        ∧ (c.delete key).1.stats.avgAccessTime = c.stats.avgAccessTime)
    ∧ (mapGet c.cache key = none → c.delete key = (c, [], false)) := by
  constructor
  · intro e hget
    have hdel : c.delete key =
        ({ c with
            cache := mapDelete c.cache key,
            stats := { c.stats with
              memoryUsage := c.stats.memoryUsage - (e.size : Int),
              totalEntries := (mapDelete c.cache key).length } },
         [SseEvent.cacheDelete key], true) := by
      unfold CacheManager.delete
      rw [hget]
    refine ⟨by rw [hdel], by rw [hdel], by rw [hdel], ?_, ?_, by rw [hdel], ?_,
        by rw [hdel], by rw [hdel], by rw [hdel], by rw [hdel]⟩
    · rw [hdel]
      simp [mapGet_mapDelete]
    · intro k2 hk2
      rw [hdel]
      simp [mapGet_mapDelete, hk2]
    · intro hnd
      rw [hdel]
      simpa using mapDelete_length c.cache key hnd (by rw [hget]; rfl)
  · intro hget
    unfold CacheManager.delete
    rw [hget]

/-- Claim C8 witness: the general theorem applied to a one-entry cache, at its
present key and at an absent key. -/
theorem delete_spec_witness :
    ((runSet (CacheManager.init {}) "a" (.json "xy") none 0 0).delete "a").2.2 = true
    ∧ (runSet (CacheManager.init {}) "a" (.json "xy") none 0 0).delete "b"
        = ((runSet (CacheManager.init {}) "a" (.json "xy") none 0 0), [], false) :=
  ⟨((delete_spec (runSet (CacheManager.init {}) "a" (.json "xy") none 0 0) "a").1
      ⟨.json "xy", 0, 0, some 3600, 4⟩ rfl).1,
   (delete_spec (runSet (CacheManager.init {}) "a" (.json "xy") none 0 0) "b").2 rfl⟩

/-- Claim C10: when `put` runs while `hits + misses = 0` (for example as the
first operation on a fresh cache), `updateAccessTime` divides by zero, so the
stored `avgAccessTime` becomes a non-finite JavaScript number (embedded as
`none`), not the finite operation duration. -/
theorem put_first_op_divzero (c : CacheManager) (key : String) (value : JSValue)
    (ttl : Option Nat) (now : Nat) (d : ℚ) (r : CacheManager × List SseEvent)
    (h0 : c.stats.hits + c.stats.misses = 0)
    (hok : c.set key value ttl now d = .ok r) :
    r.1.stats.avgAccessTime = none ∧ ∀ q : ℚ, ¬ r.1.stats.avgAccessTime = some q := by
  have hmain : r.1.stats.avgAccessTime = none := by
    cases hcs : calculateSize value with
    | error e => simp [CacheManager.set, hcs] at hok
    | ok size =>
        simp only [CacheManager.set, hcs] at hok
        cases hok
        by_cases hif : c.stats.memoryUsage + (size : Int) > c.config.maxMemory
        · simp only [if_pos hif]
          have hp := evictLoop_preserves (size : Int) (sortByLastAccessed c.cache) c
          simp only [CacheStats.updateAccessTime, CacheManager.enforceMemoryLimit]
          rw [if_pos]
          rw [hp.2.1, hp.2.2.1]
          exact h0
        · simp only [if_neg hif]
          simp only [CacheStats.updateAccessTime]
          rw [if_pos]
          exact h0
  exact ⟨hmain, fun q hq => by rw [hmain] at hq; cases hq⟩

/-- Claim C10 witness: the first `put` on a freshly constructed cache stores a
non-finite `avgAccessTime`. -/
theorem put_first_op_divzero_witness :
    (runSetE (CacheManager.init {}) "k" (.json "v") none 0 5).1.stats.avgAccessTime = none
    ∧ ∀ q : ℚ, ¬ (runSetE (CacheManager.init {}) "k" (.json "v") none 0 5).1.stats.avgAccessTime
        = some q :=
  put_first_op_divzero (CacheManager.init {}) "k" (.json "v") none 0 5
    (runSetE (CacheManager.init {}) "k" (.json "v") none 0 5) rfl rfl

end MemCache

namespace MemCache

/-- Claim C4: an entry is expired exactly when `now > created + ttl * 1000`
(`ttl` in seconds, defaulting to `defaultTTL`); `get` on an expired entry
removes the entry from the map, counts the access as a miss and returns
absent; concretely, after `put` with `ttl = 1` at time 0, a `get` at time
1001 returns absent and leaves `totalEntries = 0`, while a `get` at the
boundary time 1000 still returns the value. -/
theorem get_expired_removes (c : CacheManager) (key : String) (e : CacheEntry)
    (now : Nat) (d : ℚ) (hget : mapGet c.cache key = some e) :
    c.isExpired e now = decide (now > e.created + (e.ttl.getD c.config.defaultTTL) * 1000)
    ∧ (c.isExpired e now = true →
        (c.get key now d).2.2 = none
        ∧ mapGet (c.get key now d).1.cache key = none
        ∧ (c.get key now d).1.stats.misses = c.stats.misses + 1
        ∧ (c.get key now d).1.stats.hits = c.stats.hits
        ∧ (c.get key now d).1.stats.totalEntries = (c.get key now d).1.cache.length)
    ∧ ((runSet (CacheManager.init {}) "k" (.json "v") (some 1) 0 0).get "k" 1001 0).2.2 = none
    ∧ ((runSet (CacheManager.init {}) "k" (.json "v") (some 1) 0 0).get "k" 1001 0).1.stats.totalEntries = 0
    ∧ ((runSet (CacheManager.init {}) "k" (.json "v") (some 1) 0 0).get "k" 1000 0).2.2
        = some (.json "v") := by
  refine ⟨rfl, ?_, by decide, by decide, by decide⟩
  intro hexp
  have hdel : c.delete key =
      ({ c with
          cache := mapDelete c.cache key,
          stats := { c.stats with
            memoryUsage := c.stats.memoryUsage - (e.size : Int),
            totalEntries := (mapDelete c.cache key).length } },
       [SseEvent.cacheDelete key], true) := by
    unfold CacheManager.delete
    rw [hget]
  have hstep : c.get key now d =
      ({ (c.delete key).1 with
          stats := { (c.delete key).1.stats with
            misses := (c.delete key).1.stats.misses + 1 }.updateHitRate },
       (c.delete key).2.1, none) := by
    unfold CacheManager.get
    rw [hget]
    simp only [hexp, if_true]
  rw [hstep]
  refine ⟨rfl, ?_, ?_, ?_, ?_⟩
  · rw [hdel]
    simp [mapGet_mapDelete]
  · rw [hdel]
    simp [CacheStats.updateHitRate]
  · rw [hdel]
    simp [CacheStats.updateHitRate]
  · rw [hdel]
    simp [CacheStats.updateHitRate]

/-- Claim C4 witness: the general theorem applied to a one-entry cache holding
key `k` with `ttl = 1` created at time 0, read at time 1001. -/
theorem get_expired_removes_witness :
    (runSet (CacheManager.init {}) "k" (.json "v") (some 1) 0 0).isExpired
        ⟨.json "v", 0, 0, some 1, 2⟩ 1001 = true
    ∧ ((runSet (CacheManager.init {}) "k" (.json "v") (some 1) 0 0).get "k" 1001 0).2.2 = none :=
  ⟨by decide,
   (((get_expired_removes (runSet (CacheManager.init {}) "k" (.json "v") (some 1) 0 0) "k"
      ⟨.json "v", 0, 0, some 1, 2⟩ 1001 0 (by decide)).2.1) (by decide)).1⟩

/-- Claim C5 (amended): `get` on an absent key, or on a present but expired
key, increments `misses`, recomputes `hitRate` from the updated counters,
returns absent and never touches `avgAccessTime` (no latency is recorded on
misses; only hits and puts reach `updateAccessTime`). -/
theorem get_miss_behaviour (c : CacheManager) (key : String) (now : Nat) (d : ℚ) :
    (mapGet c.cache key = none →
        (c.get key now d).2.2 = none
        ∧ (c.get key now d).1.stats.misses = c.stats.misses + 1
        ∧ (c.get key now d).1.stats.hitRate =
            (c.stats.hits : ℚ) / ((c.stats.hits + c.stats.misses + 1 : ℕ) : ℚ) * 100
        ∧ (c.get key now d).1.stats.avgAccessTime = c.stats.avgAccessTime
        ∧ (c.get key now d).1.cache = c.cache)
    ∧ (∀ e, mapGet c.cache key = some e → c.isExpired e now = true →
        (c.get key now d).2.2 = none
        ∧ (c.get key now d).1.stats.misses = c.stats.misses + 1
        ∧ (c.get key now d).1.stats.hitRate =
            (c.stats.hits : ℚ) / ((c.stats.hits + c.stats.misses + 1 : ℕ) : ℚ) * 100
        ∧ (c.get key now d).1.stats.avgAccessTime = c.stats.avgAccessTime) := by
  constructor
  · intro hnone
    have hstep : c.get key now d =
        ({ c with stats := { c.stats with misses := c.stats.misses + 1 }.updateHitRate },
         [], none) := by
      unfold CacheManager.get
      rw [hnone]
    rw [hstep]
    refine ⟨rfl, rfl, ?_, rfl, rfl⟩
    simp only [CacheStats.updateHitRate]
    rw [if_pos (by omega)]
    push_cast
    ring_nf
  · intro e hget hexp
    have hdel : c.delete key =
        ({ c with
            cache := mapDelete c.cache key,
            stats := { c.stats with
              memoryUsage := c.stats.memoryUsage - (e.size : Int),
              totalEntries := (mapDelete c.cache key).length } },
         [SseEvent.cacheDelete key], true) := by
      unfold CacheManager.delete
      rw [hget]
    have hstep : c.get key now d =
        ({ (c.delete key).1 with
            stats := { (c.delete key).1.stats with
              misses := (c.delete key).1.stats.misses + 1 }.updateHitRate },
         (c.delete key).2.1, none) := by
      unfold CacheManager.get
      rw [hget]
      simp only [hexp, if_true]
    rw [hstep, hdel]
    refine ⟨rfl, rfl, ?_, rfl⟩
    simp only [CacheStats.updateHitRate]
    rw [if_pos (by omega)]
    push_cast
    ring_nf

/-- Claim C5 witness: the amended theorem applied to a fresh cache and a key
that was never inserted. -/
theorem get_miss_behaviour_witness :
    ((CacheManager.init {}).get "x" 0 3).2.2 = none
    ∧ ((CacheManager.init {}).get "x" 0 3).1.stats.misses = (CacheManager.init {}).stats.misses + 1
    ∧ ((CacheManager.init {}).get "x" 0 3).1.stats.hitRate =
        ((CacheManager.init {}).stats.hits : ℚ)
          / (((CacheManager.init {}).stats.hits + (CacheManager.init {}).stats.misses + 1 : ℕ) : ℚ) * 100
    ∧ ((CacheManager.init {}).get "x" 0 3).1.stats.avgAccessTime
        = (CacheManager.init {}).stats.avgAccessTime
    ∧ ((CacheManager.init {}).get "x" 0 3).1.cache = (CacheManager.init {}).cache :=
  (get_miss_behaviour (CacheManager.init {}) "x" 0 3).1 rfl

end MemCache

namespace MemCache

/-- Claim C6 (amended): the running-mean update
`avg_new = (avg_old * (n - 1) + d) / n` is applied by every `get` hit, with
`n = hits + misses` counted after the hit, and by every `put`, with
`n = hits + misses` unchanged by the put (puts touch no counters); `get`
misses do not record latency at all, and the division is unguarded when
`n = 0` (see C10). -/
theorem latency_running_mean (c : CacheManager) (key : String) (value : JSValue)
    (ttl : Option Nat) (now : Nat) (d : ℚ) (a : ℚ)
    (ha : c.stats.avgAccessTime = some a) :
    (∀ e, mapGet c.cache key = some e → c.isExpired e now = false →
        (c.get key now d).1.stats.avgAccessTime =
          some ((a * (((c.stats.hits + 1 + c.stats.misses : ℕ) : ℚ) - 1) + d)
                / ((c.stats.hits + 1 + c.stats.misses : ℕ) : ℚ)))
    ∧ (∀ r, c.set key value ttl now d = .ok r → ¬ c.stats.hits + c.stats.misses = 0 →
        r.1.stats.avgAccessTime =
          some ((a * (((c.stats.hits + c.stats.misses : ℕ) : ℚ) - 1) + d)
                / ((c.stats.hits + c.stats.misses : ℕ) : ℚ))) := by
  constructor
  · intro e hget hnexp
    have hstep : c.get key now d =
        ({ c with
            cache := mapSet c.cache key { e with lastAccessed := now },
            stats := (({ c.stats with hits := c.stats.hits + 1 }).updateHitRate).updateAccessTime d },
         [], some e.value) := by
      unfold CacheManager.get
      rw [hget]
      simp only [hnexp, Bool.false_eq_true, if_false]
    rw [hstep]
    simp only [CacheStats.updateAccessTime, CacheStats.updateHitRate]
    rw [if_neg (by omega)]
    rw [ha]
    rfl
  · intro r hok hnz
    cases hcs : calculateSize value with
    | error err => simp [CacheManager.set, hcs] at hok
    | ok size =>
        simp only [CacheManager.set, hcs] at hok
        cases hok
        by_cases hif : c.stats.memoryUsage + (size : Int) > c.config.maxMemory
        · simp only [if_pos hif]
          have hp := evictLoop_preserves (size : Int) (sortByLastAccessed c.cache) c
          simp only [CacheStats.updateAccessTime, CacheManager.enforceMemoryLimit]
          rw [if_neg (by rw [hp.2.1, hp.2.2.1]; exact hnz)]
          rw [hp.2.1, hp.2.2.1, hp.2.2.2.2, ha]
          rfl
        · simp only [if_neg hif]
          simp only [CacheStats.updateAccessTime]
          rw [if_neg hnz, ha]
          rfl

/-- Claim C6 witness: the amended theorem applied after one recorded miss
(`hits + misses = 1`, finite `avgAccessTime = some 0`): the next `put` with
duration 7 stores the running mean of the formula. -/
theorem latency_running_mean_witness :
    (runSetE ((CacheManager.init {}).get "x" 0 0).1 "k" (.json "v") none 0 7).1.stats.avgAccessTime =
      some ((0 * ((((((CacheManager.init {}).get "x" 0 0).1.stats.hits
            + ((CacheManager.init {}).get "x" 0 0).1.stats.misses : ℕ)) : ℚ) - 1) + 7)
            / (((((CacheManager.init {}).get "x" 0 0).1.stats.hits
            + ((CacheManager.init {}).get "x" 0 0).1.stats.misses : ℕ)) : ℚ)) :=
  (latency_running_mean ((CacheManager.init {}).get "x" 0 0).1 "k" (.json "v") none 0 7 0 rfl).2
    (runSetE ((CacheManager.init {}).get "x" 0 0).1 "k" (.json "v") none 0 7) rfl (by decide)

/-- Claim C3: under memory pressure, eviction deletes entries one at a time in
ascending `lastAccessed` order (stable LRU order, ties kept in insertion
order): the deletions it emits are an initial segment of the LRU-sorted
snapshot, each through the full `delete` semantics, and the loop stops as soon
as the projected usage fits or no entries remain; concretely, with A (t=1),
B (t=2), C (t=3), a put of D that needs exactly one eviction deletes A and
leaves B, C and D. -/
theorem evict_lru_order (c : CacheManager) (required : Int)
    (hkeys : (c.cache.map Prod.fst).Nodup) :
    List.Sorted lruLE (sortByLastAccessed c.cache)
    ∧ (c.enforceMemoryLimit required).2 =
        ((sortByLastAccessed c.cache).take (c.enforceMemoryLimit required).2.length).map
          (fun p => SseEvent.cacheDelete p.1)
    ∧ ((c.enforceMemoryLimit required).1.stats.memoryUsage + required ≤ c.config.maxMemory
       ∨ (c.enforceMemoryLimit required).1.cache = [])
    ∧ (runSetE stateABC "D" (.json "aaa") none 4 0).2 =
        [SseEvent.cacheDelete "A", SseEvent.cacheSet "D" (.json "aaa")]
    ∧ (runSetE stateABC "D" (.json "aaa") none 4 0).1.cache.map Prod.fst = ["B", "C", "D"] := by
  have hperm : List.Perm (sortByLastAccessed c.cache) c.cache :=
    List.perm_insertionSort lruLE c.cache
  refine ⟨List.sorted_insertionSort lruLE c.cache, ?_, ?_, by decide, by decide⟩
  · apply evictLoop_events
    · exact ((hperm.map Prod.fst).nodup_iff).mpr hkeys
    · intro p hp
      have hmem : (p.1, p.2) ∈ c.cache := by
        rw [Prod.mk.eta]
        exact hperm.mem_iff.mp hp
      exact mapGet_isSome_of_mem c.cache p.1 p.2 hmem
  · apply evictLoop_stop
    intro k hk
    obtain ⟨e, he⟩ := Option.isSome_iff_exists.mp hk
    have hm : k ∈ c.cache.map Prod.fst :=
      List.mem_map_of_mem Prod.fst (mem_of_mapGet c.cache k e he)
    exact ((hperm.map Prod.fst).mem_iff).mpr hm

/-- Claim C3 witness: the general theorem applied to the concrete A/B/C state. -/
theorem evict_lru_order_witness :
    List.Sorted lruLE (sortByLastAccessed stateABC.cache) :=
  (evict_lru_order stateABC 6 (by decide)).1

end MemCache
